import Mathlib

/-!
Verification of the stream-buffer and cancelable-I/O core of the repository
(`ssh/buffer.go`, `ssh/cancelable_bufio.go`).

The buffer is a linked list of segments (`element` nodes) drained front to
back.  We embed the chain from `head` to `tail` as a `List (List Nat)`:
each entry is the remaining byte run of one `element`, the first entry is
`head`'s run and the last entry is `tail`'s run.  Byte values are abstract
(the buffer copies them without inspecting them), so bytes are `Nat`.

Concurrency is embedded sequentially: the worker goroutine executes each
submitted command synchronously relative to the submitting call (the send on
the unbuffered `opCh` hands the closure to the worker, which runs it before
taking the next command), so in a quiescent state a call's observable effect
is a pure state transformation.  The only nondeterminism visible to a caller
is the Go `select` between the data channel and `ctx.Done()`, which we make
explicit as a boolean choice parameter.
-/

namespace ssh

/-- One iteration outcome of `ReadWithContext` as reported to the caller:
`bytes` is the prefix of the destination actually reported (length `n`), and
`err` is the returned error.  `wouldBlock` stands for the non-returning case:
an open, empty buffer with no cancellation makes the Go loop iterate forever
waiting for a producer, so the call does not return in a quiescent state. -/
inductive RWErr where
  | noErr
  | eofErr
  | canceledErr
  | wouldBlock
deriving DecidableEq, Repr

structure ReadOutcome where
  bytes : List Nat
  err : RWErr
deriving DecidableEq, Repr

/-- The `buffer` struct of `ssh/buffer.go`.  `segs` is the chain of byte runs
from `head` to `tail` (`head == tail` with an exhausted run is `[run]` with
`run = []`); `closed` is the flag guarded by `b.mu`, set together with the
closing of `opCh`. -/
structure buffer where
  segs : List (List Nat)
  closed : Bool
deriving DecidableEq, Repr

/-- Concatenation of the remaining byte runs: the queued byte content. -/
def flat : List (List Nat) → List Nat
  | [] => []
  | s :: rest => s ++ flat rest

/-- `newBuffer` allocates one placeholder `element` (empty byte run) with
`head = tail = e` and the buffer open. -/
def newBuffer : buffer := ⟨[[]], false⟩

/-- The `read` method (drain loop) of `buffer`, on the segment chain.
`k` is `len(buf)`, the destination capacity.  Returns the bytes copied and
the remaining chain.  Mirrors the Go loop exactly:
while the destination has room, copy from a non-empty `head`; advance
`head` to `head.next` when its run is exhausted and `head != tail`;
stop when the destination is full or `head == tail` with an empty run.
An exhausted head is kept (not advanced) when the destination fills at the
exact segment boundary, just as in the source. -/
def read : List (List Nat) → Nat → List Nat × List (List Nat)
  | [], _ => ([], [])
  | [s], k => (s.take k, [s.drop k])
  | s :: r :: rest, k =>
    if k = 0 then ([], s :: r :: rest)
    else if s.length = 0 then read (r :: rest) k
    else if k ≤ s.length then (s.take k, s.drop k :: r :: rest)
    else
      let p := read (r :: rest) (k - s.length)
      (s ++ p.1, p.2)

theorem read_fst (segs : List (List Nat)) : ∀ k, (read segs k).1 = (flat segs).take k := by
  induction segs with
  | nil => intro k; simp [read, flat]
  | cons s tail ih =>
    intro k
    cases tail with
    | nil => simp [read, flat]
    | cons r rest =>
      show (read (s :: r :: rest) k).1 = _
      rw [read]
      by_cases hk : k = 0
      · simp [hk, flat]
      · simp only [hk, if_false]
        by_cases hs : s.length = 0
        · have hs' : s = [] := List.eq_nil_of_length_eq_zero hs
          simp [hs, hs', flat, ih]
        · simp only [hs, if_false]
          by_cases hks : k ≤ s.length
          · simp only [hks, if_true, flat]
            rw [List.take_append_eq_append_take]
            have : k - s.length = 0 := by omega
            simp [this]
          · simp only [hks, if_false, flat]
            rw [ih, List.take_append_eq_append_take]
            have : s.take k = s := List.take_of_length_le (by omega)
            rw [this]
            rfl

theorem read_snd (segs : List (List Nat)) :
    ∀ k, flat (read segs k).2 = (flat segs).drop k := by
  induction segs with
  | nil => intro k; simp [read, flat]
  | cons s tail ih =>
    intro k
    cases tail with
    | nil => simp [read, flat]
    | cons r rest =>
      show flat (read (s :: r :: rest) k).2 = _
      rw [read]
      by_cases hk : k = 0
      · simp [hk, flat]
      · simp only [hk, if_false]
        by_cases hs : s.length = 0
        · have hs' : s = [] := List.eq_nil_of_length_eq_zero hs
          simp [hs, hs', flat, ih]
        · simp only [hs, if_false]
          by_cases hks : k ≤ s.length
          · simp only [hks, if_true, flat]
            rw [List.drop_append_eq_append_drop]
            have : k - s.length = 0 := by omega
            simp [this]
          · simp only [hks, if_false, flat]
            rw [ih, List.drop_append_eq_append_drop]
            have : s.drop k = [] := List.drop_eq_nil_of_le (by omega)
            simp [this]
            rfl

/-- The `write` method.  The caller submits an append command on `opCh` and
waits for the worker to link a new `element` after `tail`.  Sending on a
closed `opCh` — i.e. calling `write` after `eof` — panics in Go; the panic is
embedded as `none`. -/
def write (b : buffer) (data : List Nat) : Option buffer :=
  if b.closed then none
  else some { b with segs := b.segs ++ [data] }

/-- The `eof` method: under `b.mu`, if not already closed, set `closed` and
close `opCh` (shutting down the worker, which then closes `finCh`).  The
guard makes the second and later calls leave the state untouched. -/
def eof (b : buffer) : buffer :=
  if b.closed then b else { b with closed := true }

/-- `n` successive calls to `eof`. -/
def eofN : Nat → buffer → buffer
  | 0, b => b
  | n + 1, b => eofN n (eof b)

/-- One call of `ReadWithContext`, embedded for a quiescent buffer (no
concurrent producer during the call).  `k` is `len(buf)`.
`tokenFired` says whether `ctx.Done()` is ready during the call;
`pickCancel` resolves the `select` race: when both the data signal
(`ch`/`finCh`) and `ctx.Done()` are ready, Go picks one nondeterministically,
and `pickCancel = true` means it picks `ctx.Done()`.

Faithfulness notes, traced from the source:
* `len(buf) = 0` skips the loop entirely and returns `(0, nil)`.
* Closed branch: the worker is gone and `finCh` is closed, so the `select`
  between `finCh` and `ctx.Done()` either proceeds to a direct `b.read(buf)`
  or breaks out with `context.Canceled`; in the cancel case `b.read` is never
  invoked, so the state is untouched.
* Open branch: the read command is handed to the worker over the unbuffered
  `opCh` *before* the `select`, so the worker drains the buffer into `buf`
  in every case; if the `select` then picks `ctx.Done()`, the drained bytes
  are dropped (the reply sits unread in the 1-buffered `ch`) and the call
  reports `(0, context.Canceled)`.
* `n` is still `0` at every `select`: an iteration that read `n > 0` bytes
  returns, so a cancel `break outer` always reports `n = 0`.
* An open, empty, uncanceled iteration loops again; with no producer this
  never returns, reported here as `wouldBlock` (the state shown is the one
  after the first worker drain, whose queued content is unchanged). -/
def ReadWithContext (b : buffer) (k : Nat) (tokenFired pickCancel : Bool) :
    ReadOutcome × buffer :=
  if k = 0 then (⟨[], .noErr⟩, b)
  else if b.closed then
    if tokenFired && pickCancel then (⟨[], .canceledErr⟩, b)
    else
      let p := read b.segs k
      if 0 < p.1.length then (⟨p.1, .noErr⟩, { b with segs := p.2 })
      else (⟨p.1, .eofErr⟩, { b with segs := p.2 })
  else
    let p := read b.segs k
    if tokenFired && pickCancel then (⟨[], .canceledErr⟩, { b with segs := p.2 })
    else if 0 < p.1.length then (⟨p.1, .noErr⟩, { b with segs := p.2 })
    else (⟨p.1, .wouldBlock⟩, { b with segs := p.2 })

/-- A sequence of `write` calls, in order. -/
def writeAll (b : buffer) : List (List Nat) → Option buffer
  | [] => some b
  | d :: ds =>
    match write b d with
    | some b2 => writeAll b2 ds
    | none => none

/-- Repeated `ReadWithContext` calls with the given destination sizes and a
token that never fires; returns the outcomes in call order and the final
buffer state. -/
def runReads (b : buffer) : List Nat → List ReadOutcome × buffer
  | [] => ([], b)
  | k :: ks =>
    let p := ReadWithContext b k false false
    let q := runReads p.2 ks
    (p.1 :: q.1, q.2)

/-- The bytes delivered by a sequence of read outcomes, concatenated. -/
def outBytes : List ReadOutcome → List Nat
  | [] => []
  | o :: os => o.bytes ++ outBytes os

theorem writeAll_open (ds : List (List Nat)) :
    ∀ b : buffer, b.closed = false →
      writeAll b ds = some { b with segs := b.segs ++ ds } := by
  induction ds with
  | nil => intro b _; simp [writeAll]
  | cons d ds ih =>
    intro b hb
    rw [writeAll, write, hb]
    simp only [Bool.false_eq_true, if_false]
    rw [ih ⟨b.segs ++ [d], false⟩ rfl]
    simp

/-- The bytes a never-canceled `ReadWithContext` reports are always the
first `k` queued bytes (empty when the buffer has none or `k = 0`). -/
theorem ReadWithContext_bytes (b : buffer) (k : Nat) :
    (ReadWithContext b k false false).1.bytes = (flat b.segs).take k := by
  rw [ReadWithContext]
  by_cases hk : k = 0
  · simp [hk]
  · simp only [hk, if_false, Bool.false_and, Bool.false_eq_true, if_false]
    by_cases hc : b.closed
    · simp only [hc, if_true]
      split <;> simp [read_fst]
    · simp only [hc, Bool.false_eq_true, if_false]
      split <;> simp [read_fst]

/-- A never-canceled `ReadWithContext` leaves the queued content minus the
bytes it reported, and never flips `closed`. -/
theorem ReadWithContext_state (b : buffer) (k : Nat) :
    flat (ReadWithContext b k false false).2.segs = (flat b.segs).drop k ∧
    (ReadWithContext b k false false).2.closed = b.closed := by
  rw [ReadWithContext]
  by_cases hk : k = 0
  · simp [hk]
  · simp only [hk, if_false, Bool.false_and, Bool.false_eq_true, if_false]
    by_cases hc : b.closed
    · simp only [hc, if_true]
      by_cases hp : 0 < (read b.segs k).1.length
      · simp [hp, read_snd, hc]
      · simp [hp, read_snd, hc]
    · simp only [hc, Bool.false_eq_true, if_false]
      by_cases hp : 0 < (read b.segs k).1.length
      · simp [hp, read_snd, hc]
      · simp [hp, read_snd, hc]

/-- On a closed buffer a never-canceled read returns `nil` error exactly when
it obtained a byte (or was given an empty destination), and `io.EOF`
otherwise. -/
theorem ReadWithContext_closed_err (b : buffer) (k : Nat) (hc : b.closed = true) :
    (ReadWithContext b k false false).1.err =
      if k = 0 then .noErr
      else if (flat b.segs).take k = [] then .eofErr else .noErr := by
  rw [ReadWithContext]
  by_cases hk : k = 0
  · simp [hk]
  · simp only [hk, if_false, Bool.false_and, Bool.false_eq_true, if_false, hc, if_true]
    by_cases hp : 0 < (read b.segs k).1.length
    · have : (flat b.segs).take k ≠ [] := by
        rw [← read_fst]; exact List.ne_nil_of_length_pos hp
      simp [hp, this]
    · have : (read b.segs k).1 = [] := by
        cases h : (read b.segs k).1 with
        | nil => rfl
        | cons a l => rw [h] at hp; simp at hp
      have h2 : (flat b.segs).take k = [] := by rw [← read_fst]; exact this
      simp [hp, h2]

theorem ReadOutcome_eq_mk (o : ReadOutcome) (l : List Nat) (e : RWErr)
    (h1 : o.bytes = l) (h2 : o.err = e) : o = ⟨l, e⟩ := by
  cases o
  cases h1
  cases h2
  rfl

theorem eof_closed (b : buffer) : (eof b).closed = true := by
  unfold eof
  by_cases h : b.closed <;> simp [h]

theorem eof_eof (b : buffer) : eof (eof b) = eof b := by
  unfold eof
  by_cases h : b.closed <;> simp [h]

/-- A never-canceled read on a closed, fully drained buffer returns
`(0, io.EOF)` and leaves the buffer closed and drained. -/
theorem read_closed_drained (b : buffer) (k : Nat) (hc : b.closed = true)
    (hd : flat b.segs = []) (hk : 0 < k) :
    (ReadWithContext b k false false).1 = ⟨[], RWErr.eofErr⟩ ∧
    (ReadWithContext b k false false).2.closed = true ∧
    flat (ReadWithContext b k false false).2.segs = [] := by
  refine ⟨?_, ?_, ?_⟩
  · apply ReadOutcome_eq_mk
    · rw [ReadWithContext_bytes, hd]
      simp
    · rw [ReadWithContext_closed_err b k hc, hd]
      simp [hk.ne']
  · rw [(ReadWithContext_state b k).2, hc]
  · rw [(ReadWithContext_state b k).1, hd]
    simp

/-- Read schedules on a closed buffer deliver the queued bytes in order,
leave the rest queued, never report an error other than `io.EOF`, and report
`io.EOF` only with zero bytes. -/
theorem runReads_closed (ks : List Nat) :
    ∀ b : buffer, b.closed = true →
      outBytes (runReads b ks).1 = (flat b.segs).take ks.sum ∧
      flat (runReads b ks).2.segs = (flat b.segs).drop ks.sum ∧
      (runReads b ks).2.closed = true ∧
      ∀ o ∈ (runReads b ks).1,
        o.err = RWErr.noErr ∨ (o.err = RWErr.eofErr ∧ o.bytes = []) := by
  induction ks with
  | nil =>
    intro b hb
    refine ⟨?_, ?_, hb, ?_⟩ <;> simp [runReads, outBytes]
  | cons k ks ih =>
    intro b hb
    have hbytes := ReadWithContext_bytes b k
    have hstate := ReadWithContext_state b k
    have herr := ReadWithContext_closed_err b k hb
    have hc2 : (ReadWithContext b k false false).2.closed = true := by
      rw [hstate.2, hb]
    obtain ⟨ih1, ih2, ih3, ih4⟩ := ih (ReadWithContext b k false false).2 hc2
    have hrw : runReads b (k :: ks) =
        ((ReadWithContext b k false false).1 ::
           (runReads (ReadWithContext b k false false).2 ks).1,
         (runReads (ReadWithContext b k false false).2 ks).2) := rfl
    rw [hrw]
    refine ⟨?_, ?_, ih3, ?_⟩
    · show outBytes (_ :: _) = _
      rw [outBytes, hbytes, ih1, hstate.1, List.sum_cons, List.take_add]
    · show flat _ = _
      rw [ih2, hstate.1, List.drop_drop, List.sum_cons]
    · intro o ho
      rcases List.mem_cons.mp ho with h1 | h2
      · subst h1
        rw [herr, hbytes]
        by_cases hk : k = 0
        · left
          simp [hk]
        · by_cases ht : (flat b.segs).take k = []
          · right
            simp [hk, ht]
          · left
            simp [hk, ht]
      · exact ih4 o h2

/-- C1: appending A1..An with `write`, then `eof`, then issuing
`ReadWithContext` with any destination sizes (token never firing) delivers
exactly the concatenation of A1..An in order — `take`/`drop` of the
concatenation, so no byte is reordered, duplicated or lost — with no error on
any read that delivers bytes, and once everything is delivered every further
read with a non-empty destination returns zero bytes with `io.EOF`. -/
theorem c1_order_preservation (datas : List (List Nat)) (ks : List Nat)
    (b : buffer) (h : writeAll newBuffer datas = some b) :
    outBytes (runReads (eof b) ks).1 = (flat datas).take ks.sum ∧
    flat (runReads (eof b) ks).2.segs = (flat datas).drop ks.sum ∧
    (∀ o ∈ (runReads (eof b) ks).1,
      o.err = RWErr.noErr ∨ (o.err = RWErr.eofErr ∧ o.bytes = [])) ∧
    ((flat datas).length ≤ ks.sum → ∀ k, 0 < k →
      (ReadWithContext (runReads (eof b) ks).2 k false false).1
        = ⟨[], RWErr.eofErr⟩) := by
  have hb : b = ⟨[] :: datas, false⟩ := by
    rw [writeAll_open datas newBuffer rfl] at h
    exact (Option.some.inj h).symm
  subst hb
  have hclosed : (eof (⟨[] :: datas, false⟩ : buffer)).closed = true := rfl
  have hflat : flat (eof (⟨[] :: datas, false⟩ : buffer)).segs = flat datas := rfl
  obtain ⟨h1, h2, h3, h4⟩ := runReads_closed ks _ hclosed
  rw [hflat] at h1 h2
  refine ⟨h1, h2, h4, ?_⟩
  intro hlen k hk
  have hdr : flat (runReads (eof ⟨[] :: datas, false⟩) ks).2.segs = [] := by
    rw [h2]
    exact List.drop_eq_nil_of_le hlen
  exact (read_closed_drained _ k h3 hdr hk).1

theorem c1_order_preservation_witness :
    outBytes (runReads (eof ⟨[[], [1, 2], [3]], false⟩) [2, 5]).1 = [1, 2, 3] := by
  have h := c1_order_preservation [[1, 2], [3]] [2, 5] ⟨[[], [1, 2], [3]], false⟩ rfl
  exact h.1.trans rfl

/-- C2 counterexample: on an open buffer holding `[1, 2, 3]`, a 2-byte read
whose token has fired and whose `select` resolves to `ctx.Done()` reports
`(0, context.Canceled)` — yet the worker has already drained `[1, 2]` into
the caller's destination, so the queued content shrinks to `[3]`; the next
successful read returns `[3]`, not the `[1, 2]` an uncanceled call would
have returned.  Firing the token therefore can consume queued bytes. -/
theorem c2_cancellation_counterexample :
    (ReadWithContext ⟨[[1, 2, 3]], false⟩ 2 true true).1.err = RWErr.canceledErr ∧
    flat (ReadWithContext ⟨[[1, 2, 3]], false⟩ 2 true true).2.segs = [3] ∧
    (ReadWithContext (ReadWithContext ⟨[[1, 2, 3]], false⟩ 2 true true).2
        2 false false).1.bytes = [3] ∧
    (ReadWithContext ⟨[[1, 2, 3]], false⟩ 2 false false).1.bytes = [1, 2] :=
  ⟨rfl, rfl, rfl, rfl⟩

/-- C2 amended: a read aborted by its token leaves the buffer's queued byte
content unchanged provided the buffer is closed, or no queued bytes were
available for the worker to drain; then the subsequent read returns exactly
the bytes an uncanceled call would have returned.  (When the buffer is open
and non-empty, the aborted read may instead consume up to `len(dest)` bytes,
as the counterexample shows.) -/
theorem c2_cancellation_amended (b : buffer) (k : Nat)
    (h : b.closed = true ∨ flat b.segs = []) :
    flat (ReadWithContext b k true true).2.segs = flat b.segs ∧
    (ReadWithContext (ReadWithContext b k true true).2 k false false).1.bytes =
      (ReadWithContext b k false false).1.bytes := by
  have hA : flat (ReadWithContext b k true true).2.segs = flat b.segs := by
    rw [ReadWithContext]
    by_cases hk : k = 0
    · simp [hk]
    · rcases h with hc | hd
      · simp [hk, hc]
      · by_cases hc : b.closed
        · simp [hk, hc]
        · simp [hk, hc, read_snd, hd]
  exact ⟨hA, by rw [ReadWithContext_bytes, ReadWithContext_bytes, hA]⟩

theorem c2_cancellation_amended_witness :
    flat (ReadWithContext ⟨[[1], [2]], true⟩ 1 true true).2.segs = [1, 2] := by
  have h := c2_cancellation_amended ⟨[[1], [2]], true⟩ 1 (Or.inl rfl)
  exact h.1.trans rfl

/-- C3: on a closed and fully drained buffer, every `ReadWithContext` with a
non-empty destination returns zero bytes with `io.EOF`, and the buffer stays
closed and drained. -/
theorem c3_eof_after_drain (b : buffer) (k : Nat) (hc : b.closed = true)
    (hd : flat b.segs = []) (hk : 0 < k) :
    (ReadWithContext b k false false).1 = ⟨[], RWErr.eofErr⟩ ∧
    (ReadWithContext b k false false).2.closed = true ∧
    flat (ReadWithContext b k false false).2.segs = [] :=
  read_closed_drained b k hc hd hk

theorem c3_eof_after_drain_witness :
    (ReadWithContext (eof newBuffer) 1 false false).1 = ⟨[], RWErr.eofErr⟩ :=
  (c3_eof_after_drain (eof newBuffer) 1 rfl rfl (by decide)).1

/-- C4: a `ReadWithContext` that reports `context.Canceled` always reports
zero bytes (the Go `n` is still `0` at every `select`, because an iteration
that obtained bytes returns), and whenever the token has fired and the
`select` resolves to `ctx.Done()` with a non-empty destination, the call
returns exactly `(0, context.Canceled)`. -/
theorem c4_cancel_zero_bytes (b : buffer) (k : Nat) (tf pc : Bool) :
    ((ReadWithContext b k tf pc).1.err = RWErr.canceledErr →
      (ReadWithContext b k tf pc).1.bytes = []) ∧
    (0 < k → (ReadWithContext b k true true).1 = ⟨[], RWErr.canceledErr⟩) := by
  constructor
  · rw [ReadWithContext]
    by_cases hk : k = 0
    · simp [hk]
    · by_cases hp : 0 < (read b.segs k).1.length <;>
        by_cases hc : b.closed <;>
          by_cases ht : (tf && pc) = true <;>
            simp [hk, hp, hc, ht]
  · intro hk
    rw [ReadWithContext]
    by_cases hc : b.closed <;> simp [hk.ne', hc]

theorem c4_cancel_zero_bytes_witness :
    (ReadWithContext ⟨[[5]], false⟩ 1 true true).1 = ⟨[], RWErr.canceledErr⟩ :=
  (c4_cancel_zero_bytes ⟨[[5]], false⟩ 1 true true).2 (by decide)

/-- C5: as soon as at least one byte is available and the destination is
non-empty, `ReadWithContext` returns immediately (no blocking outcome) with
a nil error and exactly `min len(dest) available` bytes — the first `k`
queued bytes. -/
theorem c5_short_read (b : buffer) (k : Nat) (hk : 0 < k)
    (hne : flat b.segs ≠ []) :
    (ReadWithContext b k false false).1.bytes = (flat b.segs).take k ∧
    (ReadWithContext b k false false).1.err = RWErr.noErr ∧
    ((ReadWithContext b k false false).1.bytes).length
      = min k (flat b.segs).length := by
  have hp : 0 < (read b.segs k).1.length := by
    rw [read_fst, List.length_take]
    have := List.length_pos.mpr hne
    omega
  refine ⟨ReadWithContext_bytes b k, ?_, ?_⟩
  · rw [ReadWithContext]
    by_cases hc : b.closed <;> simp [hk.ne', hc, hp]
  · rw [ReadWithContext_bytes, List.length_take]

theorem c5_short_read_witness :
    (ReadWithContext ⟨[[7, 8]], false⟩ 5 false false).1.bytes = [7, 8] ∧
    (ReadWithContext ⟨[[7, 8]], false⟩ 5 false false).1.err = RWErr.noErr := by
  have h := c5_short_read ⟨[[7, 8]], false⟩ 5 (by decide) (by decide)
  exact ⟨h.1.trans rfl, h.2.1⟩

/-- C6: `eof` is idempotent — `N ≥ 1` calls produce exactly the state one
call produces (the `if !b.closed` guard makes later calls no-ops), so the
closed flag, the worker shutdown and every subsequent read result, all
functions of the state, coincide. -/
theorem c6_eof_idempotent (b : buffer) (n : Nat) : eofN (n + 1) b = eof b := by
  induction n generalizing b with
  | zero => rfl
  | succ n ih =>
    show eofN (n + 1) (eof b) = eof b
    rw [ih (eof b), eof_eof]

/-- C9: `write` after `eof` is outside the contract: the append command is
sent on the closed `opCh`, which panics (embedded as `none`); on an open
buffer `write` appends normally. -/
theorem c9_write_after_eof (b : buffer) (data : List Nat) :
    write (eof b) data = none ∧
    (b.closed = false →
      write b data = some { b with segs := b.segs ++ [data] }) := by
  constructor
  · rw [write, eof_closed]
    simp
  · intro h
    rw [write, h]
    simp

theorem c9_write_after_eof_witness :
    write (eof newBuffer) [1] = none ∧
    write newBuffer [1] = some ⟨[[], [1]], false⟩ :=
  ⟨(c9_write_after_eof newBuffer [1]).1,
   ((c9_write_after_eof newBuffer [1]).2 rfl).trans rfl⟩

/-- C10: a `ReadWithContext` with a zero-length destination skips the loop
entirely and returns `(0, nil)` with the buffer untouched, whatever the
closed flag, queued content, or token state — never `io.EOF`, never
`context.Canceled`, never blocking. -/
theorem c10_zero_length_read (b : buffer) (tf pc : Bool) :
    ReadWithContext b 0 tf pc = (⟨[], RWErr.noErr⟩, b) := by
  rw [ReadWithContext]
  simp

/-!
Embedding of `ssh/cancelable_bufio.go`.

A Go `time.Time` instant is embedded as nanoseconds since the Unix epoch
(`Int`), so `time.Unix(sec, nsec)` is `sec * 10^9 + nsec`.

An `io.Reader` (resp. `io.Writer`) is embedded as its abstract state `α`
together with the outcome of the interface probe
`r.(readerWithDeadlineSetter)` (resp. `w.(writerWithDeadlineSetter)`):
`none` when the dynamic type has no `SetReadDeadline` / `SetWriteDeadline`
method, and `some f` when it does, where `f t s` is the state transition and
returned error (`Option ε`, `none` for a nil error) of calling the setter
with instant `t` in state `s`.  The error type `ε` ranges over the errors
the underlying object can return. -/

def timeUnix (sec nsec : Int) : Int := sec * 1000000000 + nsec

/-- A Go `error` result as seen from this package: nil, the package-level
`unsupported` error value, or an error produced by the underlying object. -/
inductive goError (ε : Type) where
  | nilErr : goError ε
  | unsupported : goError ε
  | underlyingErr : ε → goError ε
deriving DecidableEq, Repr

/-- Lift the underlying setter's returned error into a Go `error` result. -/
def ofGo {ε : Type} : Option ε → goError ε
  | none => goError.nilErr
  | some e => goError.underlyingErr e

structure ioReader (α ε : Type) where
  state : α
  setReadDeadlineM : Option (Int → α → α × Option ε)

structure ioWriter (α ε : Type) where
  state : α
  setWriteDeadlineM : Option (Int → α → α × Option ε)

/-- `bufReaderWithDeadline` pairs a `bufio.Reader` with the underlying
reader.  Its deadline setter only ever touches `UnderlyingReader`, so the
buffering layer carries no state relevant to these claims and is not
represented. -/
structure bufReaderWithDeadline (α ε : Type) where
  UnderlyingReader : ioReader α ε

structure bufWriterWithDeadline (α ε : Type) where
  UnderlyingWriter : ioWriter α ε

/-- `SetReadDeadline` on `bufReaderWithDeadline`: probe the underlying reader
for the capability; return `unsupported` without touching it when absent,
otherwise forward and return the underlying setter's result. -/
def SetReadDeadline {α ε : Type} (r : bufReaderWithDeadline α ε) (t : Int) :
    bufReaderWithDeadline α ε × goError ε :=
  match r.UnderlyingReader.setReadDeadlineM with
  | none => (r, goError.unsupported)
  | some f =>
    let p := f t r.UnderlyingReader.state
    (⟨{ r.UnderlyingReader with state := p.1 }⟩, ofGo p.2)

/-- `SetWriteDeadline` on `bufWriterWithDeadline`, symmetric to
`SetReadDeadline`. -/
def SetWriteDeadline {α ε : Type} (w : bufWriterWithDeadline α ε) (t : Int) :
    bufWriterWithDeadline α ε × goError ε :=
  match w.UnderlyingWriter.setWriteDeadlineM with
  | none => (w, goError.unsupported)
  | some f =>
    let p := f t w.UnderlyingWriter.state
    (⟨{ w.UnderlyingWriter with state := p.1 }⟩, ofGo p.2)

/-- `tryCancelReader`: when the reader exposes the capability, install the
fixed instant `time.Unix(0, 0)` as the read deadline and return the setter's
result; otherwise return `unsupported` without calling the object. -/
def tryCancelReader {α ε : Type} (r : ioReader α ε) : ioReader α ε × goError ε :=
  match r.setReadDeadlineM with
  | some f =>
    let p := f (timeUnix 0 0) r.state
    ({ r with state := p.1 }, ofGo p.2)
  | none => (r, goError.unsupported)

/-- `tryCancelWriter`, symmetric to `tryCancelReader`. -/
def tryCancelWriter {α ε : Type} (w : ioWriter α ε) : ioWriter α ε × goError ε :=
  match w.setWriteDeadlineM with
  | some f =>
    let p := f (timeUnix 0 0) w.state
    ({ w with state := p.1 }, ofGo p.2)
  | none => (w, goError.unsupported)

/-- C7: the wrapper deadline setters return `unsupported` exactly when the
wrapped object lacks the corresponding capability, and in that case leave it
unmodified; when the capability is present the call is forwarded to the
underlying setter and its state change and result are returned verbatim. -/
theorem c7_deadline_wrapper {α ε : Type} (r : bufReaderWithDeadline α ε)
    (w : bufWriterWithDeadline α ε) (t : Int) :
    ((SetReadDeadline r t).2 = goError.unsupported ↔
      r.UnderlyingReader.setReadDeadlineM = none) ∧
    (r.UnderlyingReader.setReadDeadlineM = none →
      SetReadDeadline r t = (r, goError.unsupported)) ∧
    (∀ f, r.UnderlyingReader.setReadDeadlineM = some f →
      SetReadDeadline r t =
        (⟨{ r.UnderlyingReader with state := (f t r.UnderlyingReader.state).1 }⟩,
         ofGo (f t r.UnderlyingReader.state).2)) ∧
    ((SetWriteDeadline w t).2 = goError.unsupported ↔
      w.UnderlyingWriter.setWriteDeadlineM = none) ∧
    (w.UnderlyingWriter.setWriteDeadlineM = none →
      SetWriteDeadline w t = (w, goError.unsupported)) ∧
    (∀ g, w.UnderlyingWriter.setWriteDeadlineM = some g →
      SetWriteDeadline w t =
        (⟨{ w.UnderlyingWriter with state := (g t w.UnderlyingWriter.state).1 }⟩,
         ofGo (g t w.UnderlyingWriter.state).2)) := by
  refine ⟨?_, ?_, ?_, ?_, ?_, ?_⟩
  · rw [SetReadDeadline]
    cases h : r.UnderlyingReader.setReadDeadlineM with
    | none => simp
    | some f =>
      simp only [h]
      constructor
      · intro hu
        cases hg : (f t r.UnderlyingReader.state).2 <;> simp [ofGo, hg] at hu
      · intro hn
        exact Option.noConfusion hn
  · intro h
    rw [SetReadDeadline, h]
  · intro f h
    rw [SetReadDeadline, h]
  · rw [SetWriteDeadline]
    cases h : w.UnderlyingWriter.setWriteDeadlineM with
    | none => simp
    | some g =>
      simp only [h]
      constructor
      · intro hu
        cases hg : (g t w.UnderlyingWriter.state).2 <;> simp [ofGo, hg] at hu
      · intro hn
        exact Option.noConfusion hn
  · intro h
    rw [SetWriteDeadline, h]
  · intro g h
    rw [SetWriteDeadline, h]

theorem c7_deadline_wrapper_witness :
    SetReadDeadline (⟨⟨(0 : Nat), none⟩⟩ : bufReaderWithDeadline Nat Nat) 7
      = (⟨⟨0, none⟩⟩, goError.unsupported) ∧
    SetWriteDeadline (⟨⟨(0 : Nat), none⟩⟩ : bufWriterWithDeadline Nat Nat) 7
      = (⟨⟨0, none⟩⟩, goError.unsupported) :=
  ⟨(c7_deadline_wrapper (⟨⟨0, none⟩⟩ : bufReaderWithDeadline Nat Nat)
      (⟨⟨0, none⟩⟩ : bufWriterWithDeadline Nat Nat) 7).2.1 rfl,
   (c7_deadline_wrapper (⟨⟨0, none⟩⟩ : bufReaderWithDeadline Nat Nat)
      (⟨⟨0, none⟩⟩ : bufWriterWithDeadline Nat Nat) 7).2.2.2.2.1 rfl⟩

/-- C8: `tryCancelReader` / `tryCancelWriter` install the fixed
already-elapsed instant `time.Unix(0, 0)` as the read / write deadline and
return the underlying setter's result when the capability is present, and
return `unsupported` without calling the object when it is absent. -/
theorem c8_try_cancel {α ε : Type} (r : ioReader α ε) (w : ioWriter α ε) :
    (r.setReadDeadlineM = none → tryCancelReader r = (r, goError.unsupported)) ∧
    (∀ f, r.setReadDeadlineM = some f →
      tryCancelReader r =
        ({ r with state := (f (timeUnix 0 0) r.state).1 },
         ofGo (f (timeUnix 0 0) r.state).2)) ∧
    (w.setWriteDeadlineM = none → tryCancelWriter w = (w, goError.unsupported)) ∧
    (∀ g, w.setWriteDeadlineM = some g →
      tryCancelWriter w =
        ({ w with state := (g (timeUnix 0 0) w.state).1 },
         ofGo (g (timeUnix 0 0) w.state).2)) := by
  refine ⟨?_, ?_, ?_, ?_⟩
  · intro h
    rw [tryCancelReader, h]
  · intro f h
    rw [tryCancelReader, h]
  · intro h
    rw [tryCancelWriter, h]
  · intro g h
    rw [tryCancelWriter, h]

/-- A deadline-capable reader state that records the instant installed. -/
def recordingSetter : Int → Int → Int × Option Nat := fun t _ => (t, none)

theorem c8_try_cancel_witness :
    (tryCancelReader ⟨(5 : Int), some recordingSetter⟩).1.state = 0 ∧
    (tryCancelReader ⟨(5 : Int), some recordingSetter⟩).2 = goError.nilErr ∧
    tryCancelWriter (⟨(5 : Int), none⟩ : ioWriter Int Nat)
      = (⟨5, none⟩, goError.unsupported) := by
  have h := c8_try_cancel ⟨(5 : Int), some recordingSetter⟩
    (⟨(5 : Int), none⟩ : ioWriter Int Nat)
  refine ⟨?_, ?_, h.2.2.1 rfl⟩
  · rw [h.2.1 recordingSetter rfl]
    rfl
  · rw [h.2.1 recordingSetter rfl]
    rfl

end ssh
